import Mathlib

/-!
Verification of the agent core in `server/bleep/src/webserver/answer.rs`.

The token budgeter, span canonicaliser, alias allocation, chunk insertion and
action (de)serialisation are shallowly embedded below.  External collaborators
(the byte-pair tokeniser, the JSON string parser, the LLM gateway) are passed
in as function parameters, exactly as the source receives them as opaque
handles; everything written in the source file itself is translated directly.
-/

namespace Answer

/-! ## Token budgeter: `trim_lines_by_tokens`

Source, `answer.rs` lines 1427–1445.  The tokeniser `bpe.encode_ordinary`
appears only through the per-line token count, so the embedding takes the
token-count function `tok` as a parameter (`tok line = (bpe.encode_ordinary
line).len()`). -/

/-- The while loop of `trim_lines_by_tokens`: `while i < lines.len() && tokens <
max_tokens { tokens += line_tokens[i]; trimmed_lines.push(lines[i]); i += 1 }`,
with the running token total as an accumulator. -/
def trimLinesGo (tok : String → Nat) (max_tokens : Nat) : List String → Nat → List String
  | [], _ => []
  | l :: rest, tokens =>
    if tokens < max_tokens then l :: trimLinesGo tok max_tokens rest (tokens + tok l)
    else []

/-- `trim_lines_by_tokens(lines, bpe, max_tokens)` from the source. -/
def trim_lines_by_tokens (lines : List String) (tok : String → Nat) (max_tokens : Nat) :
    List String :=
  trimLinesGo tok max_tokens lines 0

/-- Total token count of a list of lines. -/
def tokenSum (tok : String → Nat) (lines : List String) : Nat :=
  (lines.map tok).sum

/-! ## Span merging: `merge_overlapping`

Source, `answer.rs` lines 1462–1477.  The Rust function mutates its first
argument and returns an `Option<Range>`; the embedding returns the updated
first range together with the returned option. -/

/-- A line range, as in Rust's `Range<usize>` (`start..end`).  The Rust field
`end` is a Lean keyword, hence the guillemets. -/
structure LineRange where
  start : Nat
  «end» : Nat
deriving DecidableEq, Repr

/-- `merge_overlapping(a, b)`: first component is `a` after the call (the Rust
function takes `&mut a`), second is the return value. -/
def merge_overlapping (a b : LineRange) : LineRange × Option LineRange :=
  if b.start ≤ a.«end» then
    -- `b` might be contained in `a`, which allows us to discard it.
    (if a.«end» < b.«end» then { a with «end» := b.«end» } else a, none)
  else
    (a, some b)

/-! ## `process_files` range pipeline

Source, `answer.rs` lines 749–792.  The model reply is parsed into a list of
`Range { start, end }` values; the pipeline filters, caps, sorts, deduplicates
and merges them. -/

/-- `MAX_CHUNK_LINE_LENGTH` from `process_files`. -/
def MAX_CHUNK_LINE_LENGTH : Nat := 20

/-- `CHUNK_MERGE_DISTANCE` from `process_files`. -/
def CHUNK_MERGE_DISTANCE : Nat := 10

/-- `r.end = r.end.min(r.start + MAX_CHUNK_LINE_LENGTH)`. -/
def capRange (r : LineRange) : LineRange :=
  { r with «end» := min r.«end» (r.start + MAX_CHUNK_LINE_LENGTH) }

/-- The derived lexicographic `Ord` on the local `Range { start, end }`
struct: compare `start` first, then `end`. -/
def rangeLe (a b : LineRange) : Bool :=
  a.start < b.start || (a.start == b.start && a.«end» ≤ b.«end»)

/-- Stable insertion into a sorted list, used to model `Vec::sort`. -/
def insertRange (r : LineRange) : List LineRange → List LineRange
  | [] => [r]
  | x :: xs => if rangeLe r x then r :: x :: xs else x :: insertRange r xs

/-- `line_ranges.sort()`: modelled as insertion sort with the lexicographic
order (`Vec::sort` is a stable sort; elements comparing equal under the
derived `Ord` are identical, so any stable sort has the same result). -/
def sortRanges : List LineRange → List LineRange
  | [] => []
  | x :: xs => insertRange x (sortRanges xs)

/-- `Vec::dedup`: removes consecutive repeated elements. -/
def rustDedup {α : Type} [DecidableEq α] : List α → List α
  | [] => []
  | [a] => [a]
  | a :: b :: rest => if a = b then rustDedup (b :: rest) else a :: rustDedup (b :: rest)

/-- One step of the fold at lines 761–773: if the last accumulated range is
close enough (`prev.end + CHUNK_MERGE_DISTANCE >= next.start`), set the last
range's end to `next.end` (note: not to the max of the two ends); otherwise
push `next`. -/
def mergeStep (exps : List LineRange) (next : LineRange) : List LineRange :=
  match exps.getLast? with
  | some prev =>
    if next.start ≤ prev.«end» + CHUNK_MERGE_DISTANCE then
      exps.dropLast ++ [{ prev with «end» := next.«end» }]
    else exps ++ [next]
  | none => exps ++ [next]

/-- The merge fold over the sorted, deduplicated ranges. -/
def mergeRanges (rs : List LineRange) : List LineRange := rs.foldl mergeStep []

/-- The full range post-processing pipeline of `process_files`: filter out
non-positive ranges, cap each end at `start + 20`, sort, dedup, merge. -/
def processRanges (rs : List LineRange) : List LineRange :=
  mergeRanges (rustDedup (sortRanges
    ((rs.filter (fun r => 0 < r.start && 0 < r.«end»)).map capRange)))

/-! ## `answer_context` alias selection

Source, `answer.rs` lines 852–885: filter the model-provided aliases to those
in range, sort, dedup; keep the list if it is a singleton, otherwise use all
known path indices. -/

/-- Insertion into a sorted list of naturals. -/
def insertNat (n : Nat) : List Nat → List Nat
  | [] => [n]
  | x :: xs => if n ≤ x then n :: x :: xs else x :: insertNat n xs

/-- `aliases.sort()` on `Vec<usize>`, modelled as insertion sort. -/
def sortNat : List Nat → List Nat
  | [] => []
  | x :: xs => insertNat x (sortNat xs)

/-- The alias selection of `Agent::answer_context`: filter out-of-range
aliases, sort and dedup, then keep the singleton or substitute all paths. -/
def answer_context_aliases (aliases : List Nat) (paths_len : Nat) : List Nat :=
  let filtered := aliases.filter (fun a => decide (a < paths_len))
  let deduped := rustDedup (sortNat filtered)
  if deduped.length = 1 then deduped else List.range paths_len

/-! ## Path alias allocation: `Agent::get_path_alias`

Source, `answer.rs` lines 439–454.  The agent state relevant here is the list
of exchanges, each carrying its ordered list of discovered paths;
`Agent::paths` flattens them in order.  `Agent::get_path_alias` either finds
the path's existing position or appends it to the *last* exchange's list. -/

/-- `Iterator::position`: index of the first element satisfying `pred`. -/
def position {α : Type} (pred : α → Bool) : List α → Option Nat
  | [] => none
  | x :: xs => if pred x then some 0 else (position pred xs).map (· + 1)

/-- `Agent::paths`: the concatenation of the path lists of all exchanges. -/
def agentPaths (exchanges : List (List String)) : List String :=
  exchanges.flatten

/-- `self.last_exchange_mut().paths.push(path)`: push onto the last
exchange's list.  The empty case models the `expect` panic and is excluded by
hypothesis in the theorems. -/
def pushLast (exchanges : List (List String)) (p : String) : List (List String) :=
  match exchanges with
  | [] => []
  | [e] => [e ++ [p]]
  | e :: rest => e :: pushLast rest p

/-- `Agent::get_path_alias`: the returned alias together with the updated
exchange list. -/
def get_path_alias (exchanges : List (List String)) (path : String) :
    Nat × List (List String) :=
  match position (fun p => p == path) (agentPaths exchanges) with
  | some i => (i, exchanges)
  | none => ((agentPaths exchanges).length, pushLast exchanges path)

/-! ## Empty-chunk invariant at insertion

Source: `CodeChunk::is_empty` (lines 348–353), the insertion loop of
`code_search` (lines 552–558) and of `process_files` (lines 803–818). -/

/-- The `CodeChunk` struct. -/
structure CodeChunk where
  path : String
  «alias» : Nat
  snippet : String
  start_line : Nat
  end_line : Nat
deriving DecidableEq

/-- Rust `str::trim`, modelled on the character list: drop leading and
trailing whitespace.  (`String.trim` itself is not kernel-reducible, so the
equivalent character-list form is used.) -/
def trimChars (s : List Char) : List Char :=
  ((s.dropWhile Char.isWhitespace).reverse.dropWhile Char.isWhitespace).reverse

/-- `CodeChunk::is_empty`: true iff the snippet trimmed of whitespace is
empty. -/
def CodeChunk.is_empty (c : CodeChunk) : Bool :=
  (trimChars c.snippet.data).isEmpty

/-- The insertion loop of `code_search`: `for chunk in chunks.iter().filter(|c|
!c.is_empty()) { ...code_chunks.push(chunk.clone()) }`. -/
def code_search_insert (code_chunks chunks : List CodeChunk) : List CodeChunk :=
  code_chunks ++ chunks.filter (fun c => !c.is_empty)

/-- The `RelevantChunk { range, code }` struct local to `process_files`. -/
structure RelevantChunk where
  range : LineRange
  code : String

/-- The `CodeChunk` built from one `RelevantChunk` of file `path` at
`alias` in the insertion loop of `process_files`. -/
def chunkOfRelevant (path : String) (a : Nat) (c : RelevantChunk) : CodeChunk :=
  { path := path, «alias» := a, snippet := c.code,
    start_line := c.range.start, end_line := c.range.«end» }

/-- The insertion loop of `process_files`: for each processed file (given
with its path and alias), push each non-empty chunk. -/
def process_files_insert (code_chunks : List CodeChunk)
    (processed : List (List RelevantChunk × String × Nat)) : List CodeChunk :=
  processed.foldl
    (fun acc file =>
      file.1.foldl
        (fun acc2 c =>
          let chunk := chunkOfRelevant file.2.1 file.2.2 c
          if !chunk.is_empty then acc2 ++ [chunk] else acc2)
        acc)
    code_chunks

/-! ## Action (de)serialisation

Source: the `Action` enum (lines 1528–1548) and `Action::deserialize_gpt`
(lines 1550–1577).  `llm_gateway::api::FunctionCall` is modelled from its use
there and in `step`: an optional name plus an arguments string.  The JSON
string parser (`serde_json::from_str`) is external to this file, so the
embedding works on a JSON value type and takes the parser as a parameter. -/

/-- A JSON value. -/
inductive Json where
  | null
  | bool (b : Bool)
  | num (n : Int)
  | str (s : String)
  | arr (xs : List Json)
  | obj (fields : List (String × Json))

/-- `llm_gateway::api::FunctionCall { name: Option<String>, arguments: String
}`. -/
structure FunctionCall where
  name : Option String
  arguments : String
deriving DecidableEq

/-- serde: deserialise a `usize` from a JSON number. -/
def jsonNat : Json → Option Nat
  | .num n => if 0 ≤ n then some n.toNat else none
  | _ => none

/-- serde: deserialise a sequence of `usize`, failing fast. -/
def jsonNats : List Json → Option (List Nat)
  | [] => some []
  | j :: js =>
    match jsonNat j, jsonNats js with
    | some n, some ns => some (n :: ns)
    | _, _ => none

/-- serde: deserialise a `Vec<usize>` from a JSON array. -/
def jsonNatList : Json → Option (List Nat)
  | .arr xs => jsonNats xs
  | _ => none

/-- Look up a struct field by key (serde ignores unknown fields). -/
def getStrField (fields : List (String × Json)) (key : String) : Option String :=
  match fields.lookup key with
  | some (.str s) => some s
  | _ => none

/-- Look up a `Vec<usize>` struct field by key. -/
def getNatsField (fields : List (String × Json)) (key : String) : Option (List Nat) :=
  match fields.lookup key with
  | some j => jsonNatList j
  | none => none

/-- The `Action` enum: `Query(String)`, `Path { query }`, `Answer { paths }`
(serde-renamed `none` on the wire), `Code { query }`, `Proc { query, paths
}`. -/
inductive Action where
  | query (s : String)
  | path (query : String)
  | answer (paths : List Nat)
  | code (query : String)
  | proc (query : String) (paths : List Nat)
deriving DecidableEq

/-- The serde externally-tagged deserialiser for `Action` (derived
`serde::Deserialize` with `rename_all = "lowercase"` and `Answer` renamed
`none`): accepts a single-entry map `{tag: value}`. -/
def actionFromTagged : Json → Option Action
  | .obj [(tag, v)] =>
    if tag = "query" then
      match v with
      | .str s => some (.query s)
      | _ => none
    else if tag = "path" then
      match v with
      | .obj fs => (getStrField fs "query").map .path
      | _ => none
    else if tag = "none" then
      match v with
      | .obj fs => (getNatsField fs "paths").map .answer
      | _ => none
    else if tag = "code" then
      match v with
      | .obj fs => (getStrField fs "query").map .code
      | _ => none
    else if tag = "proc" then
      match v with
      | .obj fs => do
        let q ← getStrField fs "query"
        let ps ← getNatsField fs "paths"
        pure (.proc q ps)
      | _ => none
    else none
  | _ => none

/-- `Action::deserialize_gpt`: wrap the wire `{name, arguments}` pair into
the tagged `{name: args}` object and run the derived deserialiser.  A parse
failure on the arguments string (malformed JSON) is an error; the source
`unwrap`s the name, and the missing-name panic is modelled as an error. -/
def deserialize_gpt (parse : String → Option Json) (call : FunctionCall) :
    Option Action :=
  match call.name with
  | some nm =>
    match parse call.arguments with
    | some v => actionFromTagged (.obj [(nm, v)])
    | none => none
  | none => none

/-- The wire name of each `Action` variant (serde lowercase tags, `Answer`
renamed `none`). -/
def Action.wireName : Action → String
  | .query _ => "query"
  | .path _ => "path"
  | .answer _ => "none"
  | .code _ => "code"
  | .proc _ _ => "proc"

/-- The serde serialisation of each variant's arguments: the value paired
with the tag in the externally-tagged encoding. -/
def Action.wireArgs : Action → Json
  | .query s => .str s
  | .path q => .obj [("query", .str q)]
  | .answer ps => .obj [("paths", .arr (ps.map (fun n => .num (Nat.cast n))))]
  | .code q => .obj [("query", .str q)]
  | .proc q ps =>
    .obj [("query", .str q), ("paths", .arr (ps.map (fun n => .num (Nat.cast n))))]

/-! ## Token budgeter: `limit_tokens`

Source, `answer.rs` lines 1447–1460.  The tokeniser is external: `encode`
models `bpe.encode_ordinary` and `dec` models `CoreBPE::decode`, which fails
(`Err`) when the bytes behind a token sequence are not valid UTF-8.  Text is
modelled as its byte sequence, so that the Rust byte slice `&text[..s.len()]`
is `text.take s.length`. -/

/-- A text, as its byte sequence. -/
abbrev ByteText := List Nat

/-- The `while !tokens.is_empty()` loop of `limit_tokens`: try to decode the
current token list; on success slice the text at the decoded string's byte
length, otherwise pop the last token and retry; return `""` when the token
list is exhausted. -/
def limitTokensGo (text : ByteText) (dec : List Nat → Option ByteText) :
    List Nat → ByteText
  | [] => []
  | t :: ts =>
    match dec (t :: ts) with
    | some s => text.take s.length
    | none => limitTokensGo text dec (t :: ts).dropLast
termination_by l => l.length
decreasing_by simp

/-- `limit_tokens(text, bpe, max_tokens)`: truncate the token encoding of
`text` to `max_tokens` tokens, then run the decoding loop. -/
def limit_tokens (encode : ByteText → List Nat) (dec : List Nat → Option ByteText)
    (text : ByteText) (max_tokens : Nat) : ByteText :=
  limitTokensGo text dec ((encode text).take max_tokens)

/-- A tiny tokeniser exhibiting a multi-byte character split across tokens:
the text `[0, 1, 2]` (a one-byte character `0` followed by the two-byte
character `[1, 2]`) encodes to token `20` (bytes `[0, 1]`, spanning the
character boundary) followed by token `21` (byte `[2]`); the one-character
text `[0]` encodes to the single token `30`. -/
def toyEncode : ByteText → List Nat
  | [0, 1, 2] => [20, 21]
  | [0] => [30]
  | _ => []

/-- Decoding for `toyEncode`: `[20]` alone is the invalid byte pair `[0, 1]`
(a character split in half), so it fails to decode. -/
def toyDecode : List Nat → Option ByteText
  | [20, 21] => some [0, 1, 2]
  | [30] => some [0]
  | _ => none

/-- Once the running total has reached the bound, the loop body is never
entered again. -/
lemma trimLinesGo_of_ge (tok : String → Nat) (max_tokens : Nat) (lines : List String)
    (tokens : Nat) (h : max_tokens ≤ tokens) :
    trimLinesGo tok max_tokens lines tokens = [] := by
  cases lines with
  | nil => rfl
  | cons l rest => simp [trimLinesGo, Nat.not_lt.mpr h]

/-- Invariant of the `trim_lines_by_tokens` loop, generalised over the running
token total. -/
lemma trimLinesGo_spec (tok : String → Nat) (max_tokens : Nat) :
    ∀ (lines : List String) (tokens : Nat), tokens < max_tokens →
      trimLinesGo tok max_tokens lines tokens <+: lines
      ∧ tokens + tokenSum tok (trimLinesGo tok max_tokens lines tokens).dropLast < max_tokens
      ∧ (trimLinesGo tok max_tokens lines tokens ≠ lines →
          max_tokens ≤ tokens + tokenSum tok (trimLinesGo tok max_tokens lines tokens)) := by
  intro lines
  induction lines with
  | nil =>
    intro tokens ht
    simp [trimLinesGo, tokenSum, ht]
  | cons l rest ih =>
    intro tokens ht
    have hgo : trimLinesGo tok max_tokens (l :: rest) tokens
        = l :: trimLinesGo tok max_tokens rest (tokens + tok l) := by
      simp [trimLinesGo, ht]
    by_cases hnext : tokens + tok l < max_tokens
    · obtain ⟨hpre, hdrop, hstop⟩ := ih (tokens + tok l) hnext
      refine ⟨?_, ?_, ?_⟩
      · rw [hgo]; exact List.cons_prefix_cons.mpr ⟨rfl, hpre⟩
      · rw [hgo]
        cases hrest : trimLinesGo tok max_tokens rest (tokens + tok l) with
        | nil => simpa [tokenSum] using ht
        | cons x xs =>
          rw [hrest] at hdrop
          simpa [tokenSum, List.dropLast, Nat.add_assoc] using hdrop
      · rw [hgo]
        intro hne
        have : trimLinesGo tok max_tokens rest (tokens + tok l) ≠ rest := by
          intro h; exact hne (by rw [h])
        have := hstop this
        simpa [tokenSum, Nat.add_assoc] using this
    · have hge : max_tokens ≤ tokens + tok l := Nat.not_lt.mp hnext
      have hnil : trimLinesGo tok max_tokens rest (tokens + tok l) = [] :=
        trimLinesGo_of_ge tok max_tokens rest (tokens + tok l) hge
      rw [hgo, hnil]
      refine ⟨⟨rest, rfl⟩, by simpa [tokenSum] using ht, ?_⟩
      intro _
      simpa [tokenSum] using hge

lemma mem_insertNat {x n : Nat} {l : List Nat} :
    x ∈ insertNat n l ↔ x = n ∨ x ∈ l := by
  induction l with
  | nil => simp [insertNat]
  | cons y ys ih =>
    by_cases h : n ≤ y
    · simp [insertNat, h]
    · simp [insertNat, h, ih]
      tauto

lemma mem_sortNat {x : Nat} {l : List Nat} : x ∈ sortNat l ↔ x ∈ l := by
  induction l with
  | nil => simp [sortNat]
  | cons y ys ih => simp [sortNat, mem_insertNat, ih]

lemma sortNat_ne_nil {l : List Nat} (h : l ≠ []) : sortNat l ≠ [] := by
  cases l with
  | nil => exact absurd rfl h
  | cons y ys =>
    cases hs : sortNat ys with
    | nil => simp [sortNat, hs, insertNat]
    | cons z zs =>
      simp only [sortNat, hs, insertNat]
      by_cases hle : y ≤ z <;> simp [hle]

lemma mem_rustDedup {α : Type} [DecidableEq α] {x : α} {l : List α} :
    x ∈ rustDedup l ↔ x ∈ l := by
  induction l with
  | nil => simp [rustDedup]
  | cons y ys ih =>
    cases ys with
    | nil => simp [rustDedup]
    | cons z zs =>
      by_cases h : y = z
      · subst h
        have e : rustDedup (y :: y :: zs) = rustDedup (y :: zs) := by
          simp [rustDedup]
        rw [e, ih]
        simp
      · have e : rustDedup (y :: z :: zs) = y :: rustDedup (z :: zs) := by
          simp [rustDedup, h]
        rw [e]
        simp [ih]

lemma rustDedup_all_eq {α : Type} [DecidableEq α] {a : α} :
    ∀ {l : List α}, l ≠ [] → (∀ x ∈ l, x = a) → rustDedup l = [a] := by
  intro l
  induction l with
  | nil => intro h; exact absurd rfl h
  | cons y ys ih =>
    intro _ hall
    have hy : y = a := hall y (by simp)
    cases ys with
    | nil => simp [rustDedup, hy]
    | cons z zs =>
      have hz : z = a := hall z (by simp)
      have htail : rustDedup (z :: zs) = [a] :=
        ih (by simp) (fun x hx => hall x (List.mem_cons_of_mem _ hx))
      have e : rustDedup (y :: z :: zs) = rustDedup (z :: zs) := by
        rw [hy, hz]
        simp [rustDedup]
      rw [e, htail]

lemma position_eq_none_iff {α : Type} {pred : α → Bool} {l : List α} :
    position pred l = none ↔ ∀ x ∈ l, pred x = false := by
  induction l with
  | nil => simp [position]
  | cons x xs ih =>
    by_cases h : pred x
    · simp [position, h]
    · simp [position, h, Option.map_eq_none', ih]

lemma position_some_spec {α : Type} {pred : α → Bool} :
    ∀ {l : List α} {i : Nat}, position pred l = some i →
      ∃ x, l[i]? = some x ∧ pred x = true
        ∧ ∀ j < i, ∀ y, l[j]? = some y → pred y = false := by
  intro l
  induction l with
  | nil => intro i h; simp [position] at h
  | cons x xs ih =>
    intro i h
    by_cases hp : pred x
    · simp [position, hp] at h
      exact ⟨x, by simp [← h], hp, by omega⟩
    · simp [position, hp] at h
      obtain ⟨k, hk, hki⟩ := h
      obtain ⟨y, hy, hpy, hprev⟩ := ih hk
      refine ⟨y, by rw [← hki]; simpa using hy, hpy, ?_⟩
      intro j hj z hz
      cases j with
      | zero =>
        simp at hz
        rw [← hz]
        exact Bool.not_eq_true _ ▸ (by simpa using hp)
      | succ j' =>
        apply hprev j' (by omega)
        simpa using hz

lemma position_append_of_none {α : Type} {pred : α → Bool} {l : List α} {x : α}
    (h : position pred l = none) (hx : pred x = true) :
    position pred (l ++ [x]) = some l.length := by
  induction l with
  | nil => simp [position, hx]
  | cons y ys ih =>
    have hy : pred y = false := position_eq_none_iff.mp h y (by simp)
    have hys : position pred ys = none :=
      position_eq_none_iff.mpr fun z hz => position_eq_none_iff.mp h z (by simp [hz])
    simp [position, hy, ih hys]

lemma agentPaths_pushLast {p : String} :
    ∀ {exchanges : List (List String)}, exchanges ≠ [] →
      agentPaths (pushLast exchanges p) = agentPaths exchanges ++ [p] := by
  intro exchanges
  induction exchanges with
  | nil => intro h; exact absurd rfl h
  | cons e rest ih =>
    intro _
    cases rest with
    | nil => simp [pushLast, agentPaths]
    | cons f rest' =>
      have hr := ih (by simp)
      show agentPaths (e :: pushLast (f :: rest') p) = agentPaths (e :: f :: rest') ++ [p]
      simp only [agentPaths, List.flatten_cons] at hr ⊢
      rw [hr]
      simp [List.append_assoc]

lemma foldl_proc_inner_inv (path : String) (a : Nat) :
    ∀ (rcs : List RelevantChunk) (acc : List CodeChunk),
      (∀ c ∈ acc, c.is_empty = false) →
      ∀ c ∈ rcs.foldl (fun acc2 rc =>
          let chunk := chunkOfRelevant path a rc
          if !chunk.is_empty then acc2 ++ [chunk] else acc2) acc,
        c.is_empty = false := by
  intro rcs
  induction rcs with
  | nil => intro acc hacc c hc; exact hacc c (by simpa using hc)
  | cons rc rest ih =>
    intro acc hacc c hc
    rw [List.foldl_cons] at hc
    refine ih _ ?_ c hc
    intro d hd
    simp only [] at hd
    by_cases he : (chunkOfRelevant path a rc).is_empty = true
    · rw [he] at hd
      simp at hd
      exact hacc d hd
    · rw [Bool.not_eq_true] at he
      rw [he] at hd
      simp at hd
      rcases hd with h1 | h1
      · exact hacc d h1
      · rw [h1]; exact he

lemma jsonNats_map_num (ps : List Nat) :
    jsonNats (ps.map (fun n => Json.num (Nat.cast n))) = some ps := by
  induction ps with
  | nil => simp [jsonNats]
  | cons n rest ih =>
    simp only [List.map_cons, jsonNats]
    rw [ih]
    simp [jsonNat]

/-! ## Token budgeter: `trim_history`

Source, `answer.rs` lines 1362–1425.  `llm_gateway::api::Message` is modelled
from the three variants matched there.  The token counter
(`tiktoken_rs::get_chat_completion_max_tokens("gpt-4", msgs)`, the remaining
completion room) and the function-call serialiser (`serde_json::to_string`)
are external and passed as the parameters `room` and `ser`. -/

/-- `llm_gateway::api::Message`, as matched in `trim_history`
(`PlainText { role, content }`, `FunctionReturn { role, name, content }`,
`FunctionCall { role, function_call, content }`; the last content field is
ignored there). -/
inductive Message where
  | plainText (role content : String)
  | functionReturn (role name content : String)
  | functionCall (role : String) (function_call : FunctionCall) (content : Option String)
deriving DecidableEq

/-- `tiktoken_rs::ChatCompletionRequestMessage`, as built at lines
1367–1396. -/
structure TikMessage where
  role : String
  content : String
  name : Option String
deriving DecidableEq

/-- The per-message conversion at lines 1369–1395. -/
def toTik (ser : FunctionCall → String) : Message → TikMessage
  | .plainText role content => ⟨role, content, none⟩
  | .functionReturn role name content => ⟨role, content, some name⟩
  | .functionCall role fc _ => ⟨role, ser fc, none⟩

/-- Whether the position-search closure at lines 1400–1418 selects a message:
a user/assistant plain-text message, or a function-return message, whose
content is not already the sentinel. -/
def trimmable : Message → Bool
  | .plainText role content =>
    (role == "user" || role == "assistant") && content != "[HIDDEN]"
  | .functionReturn _ _ content => content != "[HIDDEN]"
  | .functionCall _ _ _ => false

/-- `*content = "[HIDDEN]".into()`. -/
def hideMsg : Message → Message
  | .plainText role _ => .plainText role "[HIDDEN]"
  | .functionReturn role name _ => .functionReturn role name "[HIDDEN]"
  | m => m

/-- One loop iteration's `position`-and-replace: hide the oldest trimmable
message, or fail if none remains. -/
def hideFirst : List Message → Option (List Message)
  | [] => none
  | m :: rest =>
    if trimmable m then some (hideMsg m :: rest)
    else (hideFirst rest).map (m :: ·)

/-- `HEADROOM` from `trim_history`. -/
def HEADROOM : Nat := 2048

/-- The `while` loop of `trim_history`.  Each iteration replaces one
not-yet-hidden trimmable message, so the number of trimmable messages bounds
the iteration count; `trim_history` supplies exactly that as fuel, and the
zero-fuel-with-work-left branch is proven unreachable. -/
def trimLoop (room : List TikMessage → Nat) (ser : FunctionCall → String) :
    Nat → List Message → Option (List Message)
  | fuel, msgs =>
    if room (msgs.map (toTik ser)) < HEADROOM then
      match hideFirst msgs, fuel with
      | some msgs2, fuel2 + 1 => trimLoop room ser fuel2 msgs2
      | some _, 0 => none
      | none, _ => none
    else some msgs

/-- `trim_history(history)`: `Ok` is `some`, the
`could not find message to trim` error is `none`. -/
def trim_history (room : List TikMessage → Nat) (ser : FunctionCall → String)
    (msgs : List Message) : Option (List Message) :=
  trimLoop room ser (msgs.countP trimmable) msgs

/-- The history with every trimmable message hidden. -/
def hideAll (msgs : List Message) : List Message :=
  msgs.map fun m => if trimmable m then hideMsg m else m

/-- The multi-step reachability invariant of the trim loop, relating the
current history to the input: same length; every entry unchanged or (if
trimmable) hidden; and hidden entries are downward closed among the trimmable
positions (the oldest are hidden first). -/
def Reached (msgs cur : List Message) : Prop :=
  cur.length = msgs.length
  ∧ (∀ k : Nat, cur[k]? = msgs[k]?
      ∨ ∃ m, msgs[k]? = some m ∧ trimmable m = true ∧ cur[k]? = some (hideMsg m))
  ∧ (∀ i j : Nat, j < i → cur[i]? ≠ msgs[i]? →
      ∀ m, msgs[j]? = some m → trimmable m = true → cur[j]? = some (hideMsg m))

/-- Loop invariant for `limit_tokens`: if every successfully decoded token
prefix of `encode text` is a byte prefix of `text` that re-encodes to the
same tokens, then the loop returns a prefix of `text` whose token count is
bounded by the length of the token list it started from. -/
lemma limitTokensGo_spec (encode : ByteText → List Nat)
    (dec : List Nat → Option ByteText) (text : ByteText)
    (hdec : ∀ ts s, ts <+: encode text → dec ts = some s →
        s <+: text ∧ encode s = ts)
    (henc0 : encode [] = []) :
    ∀ (n : Nat) (ts : List Nat), ts.length ≤ n → ts <+: encode text →
      limitTokensGo text dec ts <+: text
      ∧ (encode (limitTokensGo text dec ts)).length ≤ ts.length := by
  intro n
  induction n with
  | zero =>
    intro ts hlen _
    have : ts = [] := List.length_eq_zero.mp (Nat.le_zero.mp hlen)
    subst this
    simp [limitTokensGo, henc0]
  | succ n ih =>
    intro ts hlen hpre
    cases ts with
    | nil => simp [limitTokensGo, henc0]
    | cons t rest =>
      rw [limitTokensGo]
      cases hd : dec (t :: rest) with
      | some s =>
        obtain ⟨hs, he⟩ := hdec (t :: rest) s hpre hd
        have htake : text.take s.length = s := (List.prefix_iff_eq_take.mp hs).symm
        simp only []
        rw [htake, he]
        exact ⟨hs, Nat.le_refl _⟩
      | none =>
        simp only []
        have hlen2 : (t :: rest).dropLast.length ≤ n := by
          simp at hlen ⊢
          omega
        have hpre2 : (t :: rest).dropLast <+: encode text :=
          (List.dropLast_prefix _).trans hpre
        obtain ⟨h1, h2⟩ := ih (t :: rest).dropLast hlen2 hpre2
        refine ⟨h1, h2.trans ?_⟩
        exact ((List.dropLast_prefix (t :: rest)).length_le)

lemma lt_length_of_getElem?_some {α : Type} {l : List α} {i : Nat} {a : α}
    (h : l[i]? = some a) : i < l.length := by
  by_cases hi : i < l.length
  · exact hi
  · rw [List.getElem?_eq_none_iff.mpr (Nat.not_lt.mp hi)] at h
    exact absurd h (by simp)

lemma trimmable_hideMsg {m : Message} (h : trimmable m = true) :
    trimmable (hideMsg m) = false := by
  cases m with
  | plainText role content => simp [hideMsg, trimmable]
  | functionReturn role name content => simp [hideMsg, trimmable]
  | functionCall role fc c => simp [trimmable] at h

lemma hideFirst_eq_none_iff {l : List Message} :
    hideFirst l = none ↔ ∀ m ∈ l, trimmable m = false := by
  induction l with
  | nil => simp [hideFirst]
  | cons m rest ih =>
    by_cases h : trimmable m
    · simp [hideFirst, h]
    · have hf : trimmable m = false := by simpa using h
      simp [hideFirst, h, Option.map_eq_none', ih, hf]

lemma hideFirst_some_spec :
    ∀ {l l' : List Message}, hideFirst l = some l' →
      ∃ (i : Nat) (m : Message), l[i]? = some m ∧ trimmable m = true
        ∧ (∀ j : Nat, j < i → ∀ m', l[j]? = some m' → trimmable m' = false)
        ∧ l' = l.set i (hideMsg m) := by
  intro l
  induction l with
  | nil => intro l' h; simp [hideFirst] at h
  | cons m rest ih =>
    intro l' h
    by_cases hm : trimmable m
    · rw [hideFirst, if_pos hm] at h
      refine ⟨0, m, by simp, hm, ?_, ?_⟩
      · intro j hj m' h'
        exact absurd hj (Nat.not_lt_zero j)
      · rw [← Option.some.inj h]
        rfl
    · rw [hideFirst, if_neg hm] at h
      rw [Option.map_eq_some'] at h
      obtain ⟨r', hr', hl'⟩ := h
      obtain ⟨i, m', hm', htr, hmin, hset⟩ := ih hr'
      refine ⟨i + 1, m', by simpa using hm', htr, ?_, ?_⟩
      · intro j hj m2 hm2
        cases j with
        | zero =>
          simp at hm2
          rw [← hm2]
          simpa using hm
        | succ j2 => exact hmin j2 (by omega) m2 (by simpa using hm2)
      · rw [← hl', hset]
        rfl

lemma hideFirst_countP {l l' : List Message} (h : hideFirst l = some l') :
    l.countP trimmable = l'.countP trimmable + 1 := by
  induction l generalizing l' with
  | nil => simp [hideFirst] at h
  | cons m rest ih =>
    by_cases hm : trimmable m
    · rw [hideFirst, if_pos hm] at h
      rw [← Option.some.inj h]
      rw [List.countP_cons, List.countP_cons]
      simp [hm, trimmable_hideMsg hm]
    · rw [hideFirst, if_neg hm] at h
      rw [Option.map_eq_some'] at h
      obtain ⟨r', hr', hl'⟩ := h
      rw [← hl']
      rw [List.countP_cons, List.countP_cons, ih hr']
      omega

lemma reached_refl {msgs : List Message} : Reached msgs msgs :=
  ⟨Eq.refl _, fun _ => Or.inl (Eq.refl _), fun _ _ _ hne => absurd (Eq.refl _) hne⟩

lemma Reached.step {msgs cur cur' : List Message} (hR : Reached msgs cur)
    (h : hideFirst cur = some cur') : Reached msgs cur' := by
  obtain ⟨hlen, hpt, hdc⟩ := hR
  obtain ⟨i, m, hm, htr, hmin, rfl⟩ := hideFirst_some_spec h
  have hilt : i < cur.length := lt_length_of_getElem?_some hm
  have hiv : cur[i]? = msgs[i]? := by
    rcases hpt i with h1 | ⟨m0, hm0, htr0, hcur0⟩
    · exact h1
    · exfalso
      rw [hm] at hcur0
      rw [Option.some.inj hcur0] at htr
      rw [trimmable_hideMsg htr0] at htr
      exact Bool.false_ne_true htr
  refine ⟨by rw [List.length_set]; exact hlen, ?_, ?_⟩
  · intro k
    by_cases hk : i = k
    · subst hk
      right
      refine ⟨m, by rw [← hiv]; exact hm, htr, ?_⟩
      exact List.getElem?_set_self hilt
    · rw [List.getElem?_set_ne hk]
      exact hpt k
  · intro i2 j hj hne m2 hm2 htr2
    by_cases hji : j = i
    · subst hji
      rw [List.getElem?_set_self hilt]
      rw [← hiv, hm] at hm2
      rw [Option.some.inj hm2]
    · rw [List.getElem?_set_ne (show i ≠ j from fun he => hji he.symm)]
      by_cases hi2 : cur[i2]? = msgs[i2]?
      · have hii : i2 = i := by
          by_contra hii
          rw [List.getElem?_set_ne (show i ≠ i2 from fun he => hii he.symm)] at hne
          exact hne hi2
        subst hii
        rcases hpt j with h1 | ⟨m0, hm0, htr0, hcur0⟩
        · exfalso
          have hf : trimmable m2 = false := hmin j hj m2 (h1.trans hm2)
          rw [hf] at htr2
          exact Bool.false_ne_true htr2
        · have hm02 : m0 = m2 := Option.some.inj (hm0.symm.trans hm2)
          rw [← hm02]
          exact hcur0
      · exact hdc i2 j hj hi2 m2 hm2 htr2

lemma Reached.hideAll_of_no_trimmable {msgs cur : List Message}
    (hR : Reached msgs cur) (hnone : hideFirst cur = none) : cur = hideAll msgs := by
  obtain ⟨hlen, hpt, -⟩ := hR
  have hall : ∀ m ∈ cur, trimmable m = false := hideFirst_eq_none_iff.mp hnone
  apply List.ext_getElem?
  intro k
  rw [hideAll, List.getElem?_map]
  cases hk : msgs[k]? with
  | none =>
    have hk2 : cur[k]? = none := by
      rw [List.getElem?_eq_none_iff] at hk ⊢
      rw [hlen]
      exact hk
    rw [hk2]
    rfl
  | some m =>
    rcases hpt k with h1 | ⟨m0, hm0, htr0, hcur0⟩
    · rw [h1, hk]
      have hmem : m ∈ cur := List.getElem?_mem (h1.trans hk)
      simp [hall m hmem]
    · have hm0m : m0 = m := Option.some.inj (hm0.symm.trans hk)
      subst hm0m
      rw [hcur0]
      simp [htr0]

lemma trimLoop_some_spec (room : List TikMessage → Nat) (ser : FunctionCall → String)
    (msgs : List Message) :
    ∀ (fuel : Nat) (cur out : List Message), Reached msgs cur →
      trimLoop room ser fuel cur = some out →
      Reached msgs out ∧ HEADROOM ≤ room (out.map (toTik ser)) := by
  intro fuel
  induction fuel with
  | zero =>
    intro cur out hR h
    rw [trimLoop.eq_def] at h
    simp only [] at h
    by_cases hr : room (cur.map (toTik ser)) < HEADROOM
    · rw [if_pos hr] at h
      cases hh : hideFirst cur with
      | some c =>
        rw [hh] at h
        exact absurd h (by simp)
      | none =>
        rw [hh] at h
        exact absurd h (by simp)
    · rw [if_neg hr] at h
      rw [← Option.some.inj h]
      exact ⟨hR, Nat.not_lt.mp hr⟩
  | succ fuel ih =>
    intro cur out hR h
    rw [trimLoop.eq_def] at h
    simp only [] at h
    by_cases hr : room (cur.map (toTik ser)) < HEADROOM
    · rw [if_pos hr] at h
      cases hh : hideFirst cur with
      | some c =>
        rw [hh] at h
        simp only [] at h
        exact ih c out (hR.step hh) h
      | none =>
        rw [hh] at h
        exact absurd h (by simp)
    · rw [if_neg hr] at h
      rw [← Option.some.inj h]
      exact ⟨hR, Nat.not_lt.mp hr⟩

lemma trimLoop_none_spec (room : List TikMessage → Nat) (ser : FunctionCall → String)
    (msgs : List Message) :
    ∀ (fuel : Nat) (cur : List Message), Reached msgs cur →
      cur.countP trimmable ≤ fuel →
      trimLoop room ser fuel cur = none →
      room ((hideAll msgs).map (toTik ser)) < HEADROOM := by
  intro fuel
  induction fuel with
  | zero =>
    intro cur hR hcount h
    rw [trimLoop.eq_def] at h
    simp only [] at h
    by_cases hr : room (cur.map (toTik ser)) < HEADROOM
    · rw [if_pos hr] at h
      cases hh : hideFirst cur with
      | some c =>
        have := hideFirst_countP hh
        omega
      | none =>
        rw [← hR.hideAll_of_no_trimmable hh]
        exact hr
    · rw [if_neg hr] at h
      simp at h
  | succ fuel ih =>
    intro cur hR hcount h
    rw [trimLoop.eq_def] at h
    simp only [] at h
    by_cases hr : room (cur.map (toTik ser)) < HEADROOM
    · rw [if_pos hr] at h
      cases hh : hideFirst cur with
      | some c =>
        have hcnt := hideFirst_countP hh
        rw [hh] at h
        simp only [] at h
        exact ih c (hR.step hh) (by omega) h
      | none =>
        rw [← hR.hideAll_of_no_trimmable hh]
        exact hr
    · rw [if_neg hr] at h
      simp at h

lemma hideAll_step {cur cur' : List Message} (h : hideFirst cur = some cur') :
    hideAll cur' = hideAll cur := by
  obtain ⟨i, m, hm, htr, -, rfl⟩ := hideFirst_some_spec h
  have hilt : i < cur.length := lt_length_of_getElem?_some hm
  apply List.ext_getElem?
  intro k
  rw [hideAll, hideAll, List.getElem?_map, List.getElem?_map]
  by_cases hk : i = k
  · subst hk
    rw [List.getElem?_set_self hilt, hm]
    simp [htr, trimmable_hideMsg htr]
  · rw [List.getElem?_set_ne hk]

lemma room_le_hideAll (room : List TikMessage → Nat) (ser : FunctionCall → String)
    (mono : ∀ l l', hideFirst l = some l' →
      room (l.map (toTik ser)) ≤ room (l'.map (toTik ser))) :
    ∀ (n : Nat) (cur : List Message), cur.countP trimmable ≤ n →
      room (cur.map (toTik ser)) ≤ room ((hideAll cur).map (toTik ser)) := by
  intro n
  induction n with
  | zero =>
    intro cur hc
    cases hh : hideFirst cur with
    | some c =>
      have := hideFirst_countP hh
      omega
    | none =>
      rw [← reached_refl.hideAll_of_no_trimmable hh]
  | succ n ih =>
    intro cur hc
    cases hh : hideFirst cur with
    | some c =>
      have hcnt := hideFirst_countP hh
      calc room (cur.map (toTik ser)) ≤ room (c.map (toTik ser)) := mono cur c hh
        _ ≤ room ((hideAll c).map (toTik ser)) := ih c (by omega)
        _ = room ((hideAll cur).map (toTik ser)) := by rw [hideAll_step hh]
    | none =>
      rw [← reached_refl.hideAll_of_no_trimmable hh]

lemma trimLoop_none_of_hideAll_small (room : List TikMessage → Nat)
    (ser : FunctionCall → String) (msgs : List Message)
    (mono : ∀ l l', hideFirst l = some l' →
      room (l.map (toTik ser)) ≤ room (l'.map (toTik ser))) :
    ∀ (fuel : Nat) (cur : List Message), cur.countP trimmable ≤ fuel →
      hideAll cur = hideAll msgs →
      room ((hideAll msgs).map (toTik ser)) < HEADROOM →
      trimLoop room ser fuel cur = none := by
  intro fuel
  induction fuel with
  | zero =>
    intro cur hc hha hsmall
    have hlt : room (cur.map (toTik ser)) < HEADROOM := by
      have h1 := room_le_hideAll room ser mono (cur.countP trimmable) cur (Nat.le_refl _)
      rw [hha] at h1
      omega
    rw [trimLoop.eq_def]
    simp only []
    rw [if_pos hlt]
    cases hh : hideFirst cur with
    | some c => rfl
    | none => rfl
  | succ fuel ih =>
    intro cur hc hha hsmall
    have hlt : room (cur.map (toTik ser)) < HEADROOM := by
      have h1 := room_le_hideAll room ser mono (cur.countP trimmable) cur (Nat.le_refl _)
      rw [hha] at h1
      omega
    rw [trimLoop.eq_def]
    simp only []
    rw [if_pos hlt]
    cases hh : hideFirst cur with
    | some c =>
      have hcnt := hideFirst_countP hh
      exact ih c (by omega) ((hideAll_step hh).trans hha) hsmall
    | none => rfl

end Answer

open Answer in
/-- C1, counterexample.  With a tokeniser assigning 5 tokens to every line and
`max = 1`, `trim_lines_by_tokens` still emits the first line, so the returned
list's cumulative token count (5) reaches and exceeds `max`, contradicting the
claim that the cumulative count of the returned list is strictly below `max`
(the returned list is the full input here, yet its total is not below `max`
either). -/
theorem trim_lines_by_tokens_exceeds_max :
    trim_lines_by_tokens ["a"] (fun _ => 5) 1 = ["a"]
    ∧ ¬ tokenSum (fun _ => 5) (trim_lines_by_tokens ["a"] (fun _ => 5) 1) < 1 := by
  constructor
  · rfl
  · decide

open Answer in
/-- C1, amended.  For `max > 0`, `trim_lines_by_tokens(L, max)` returns a
prefix of `L`; the cumulative token count of that prefix *excluding its final
line* is strictly below `max`; and the prefix is the whole list unless its full
cumulative token count has reached `max`.  (The full count of the returned
prefix may reach or exceed `max`, by at most the final line's tokens.) -/
theorem trim_lines_by_tokens_spec (lines : List String) (tok : String → Nat)
    (max_tokens : Nat) (hmax : 0 < max_tokens) :
    trim_lines_by_tokens lines tok max_tokens <+: lines
    ∧ tokenSum tok (trim_lines_by_tokens lines tok max_tokens).dropLast < max_tokens
    ∧ (trim_lines_by_tokens lines tok max_tokens ≠ lines →
        max_tokens ≤ tokenSum tok (trim_lines_by_tokens lines tok max_tokens)) := by
  have h := trimLinesGo_spec tok max_tokens lines 0 hmax
  simpa [trim_lines_by_tokens] using h

open Answer in
/-- C1, witness for the amended theorem at a concrete input. -/
theorem trim_lines_by_tokens_spec_witness :
    trim_lines_by_tokens ["a", "b"] (fun _ => 3) 4 <+: ["a", "b"]
    ∧ tokenSum (fun _ => 3) (trim_lines_by_tokens ["a", "b"] (fun _ => 3) 4).dropLast < 4
    ∧ (trim_lines_by_tokens ["a", "b"] (fun _ => 3) 4 ≠ ["a", "b"] →
        4 ≤ tokenSum (fun _ => 3) (trim_lines_by_tokens ["a", "b"] (fun _ => 3) 4)) :=
  trim_lines_by_tokens_spec ["a", "b"] (fun _ => 3) 4 (by decide)

open Answer in
/-- C5, counterexample.  `merge_overlapping(1..5, 3..8)` returns `None` (the
later range is absorbed by extending the earlier one), yet `3..8` is not
contained in `1..5`; so "returns `None` iff the later range is contained in the
earlier" is false as stated. -/
theorem merge_overlapping_none_not_contained :
    (merge_overlapping ⟨1, 5⟩ ⟨3, 8⟩).2 = none
    ∧ ¬ ((1 : Nat) ≤ 3 ∧ (8 : Nat) ≤ 5) := by
  constructor
  · rfl
  · decide

open Answer in
/-- C5, amended.  For `a` starting no later than `b` and `b` well-formed:
`merge_overlapping(a, b)` returns `None` iff `b.start ≤ a.end` (the later range
is absorbed whenever the two touch); it *discards* `b` — returns `None` with
`a` unchanged — iff `b` is contained in `a`; when they touch with
`b.end > a.end` it extends `a.end` to `max(a.end, b.end)` and returns `None`;
and when `a.end < b.start` it returns `b` unchanged. -/
theorem merge_overlapping_spec (a b : LineRange) (hab : a.start ≤ b.start)
    (hb : b.start ≤ b.«end») :
    ((merge_overlapping a b).2 = none ↔ b.start ≤ a.«end»)
    ∧ (merge_overlapping a b = (a, none) ↔ (a.start ≤ b.start ∧ b.«end» ≤ a.«end»))
    ∧ (b.start ≤ a.«end» → a.«end» < b.«end» →
        merge_overlapping a b = ({ a with «end» := max a.«end» b.«end» }, none))
    ∧ (a.«end» < b.start → merge_overlapping a b = (a, some b)) := by
  obtain ⟨as, ae⟩ := a
  obtain ⟨bs, be⟩ := b
  simp only [merge_overlapping] at *
  refine ⟨?_, ?_, ?_, ?_⟩
  · by_cases h : bs ≤ ae <;> simp [h]
  · by_cases h : bs ≤ ae
    · by_cases h2 : ae < be
      · simp_all [LineRange.mk.injEq, Prod.ext_iff]
        omega
      · simp_all [LineRange.mk.injEq, Prod.ext_iff]
    · simp [h, LineRange.mk.injEq, Prod.ext_iff]
      omega
  · intro h h2
    have : max ae be = be := Nat.max_eq_right (Nat.le_of_lt h2)
    simp [h, h2, this]
  · intro h
    simp [Nat.not_le.mpr h]

open Answer in
/-- C5, witness for the amended theorem: a contained range `3..4` inside
`1..10` is discarded. -/
theorem merge_overlapping_spec_witness :
    ((merge_overlapping ⟨1, 10⟩ ⟨3, 4⟩).2 = none ↔ (3 : Nat) ≤ 10)
    ∧ (merge_overlapping ⟨1, 10⟩ ⟨3, 4⟩ = (⟨1, 10⟩, none) ↔ ((1 : Nat) ≤ 3 ∧ (4 : Nat) ≤ 10))
    ∧ ((3 : Nat) ≤ 10 → (10 : Nat) < 4 →
        merge_overlapping ⟨1, 10⟩ ⟨3, 4⟩ = (⟨1, max 10 4⟩, none))
    ∧ ((10 : Nat) < 3 → merge_overlapping ⟨1, 10⟩ ⟨3, 4⟩ = (⟨1, 10⟩, some ⟨3, 4⟩)) :=
  merge_overlapping_spec ⟨1, 10⟩ ⟨3, 4⟩ (by decide) (by decide)

open Answer in
/-- C4.  When the per-file model reply parses to
`[{start:10,end:12},{start:18,end:20},{start:40,end:42}]`, the `process_files`
pipeline (filter positive, cap end at `start + 20`, sort, dedup, merge with
gap ≤ 10) produces exactly the ranges `10..20` and `40..42`. -/
theorem process_files_ranges_example :
    processRanges [⟨10, 12⟩, ⟨18, 20⟩, ⟨40, 42⟩] = [⟨10, 20⟩, ⟨40, 42⟩] := by
  decide

open Answer in
/-- C10.  In the `process_files` merge fold, a merge sets the accumulated
range's end to the *later* range's end, not to the max of the two ends; on the
sorted, deduplicated input `[10..30, 12..15]` the merged result `[10..15]`
ends before the earlier range's end (`15 < 30`) and no longer covers line 20,
which the input covered. -/
theorem process_files_merge_takes_later_end :
    (∀ a b : LineRange, b.start ≤ a.«end» + CHUNK_MERGE_DISTANCE →
        mergeRanges [a, b] = [⟨a.start, b.«end»⟩])
    ∧ sortRanges [⟨10, 30⟩, ⟨12, 15⟩] = [⟨10, 30⟩, ⟨12, 15⟩]
    ∧ rustDedup [(⟨10, 30⟩ : LineRange), ⟨12, 15⟩] = [⟨10, 30⟩, ⟨12, 15⟩]
    ∧ mergeRanges [⟨10, 30⟩, ⟨12, 15⟩] = [⟨10, 15⟩]
    ∧ (∃ r ∈ ([⟨10, 30⟩, ⟨12, 15⟩] : List LineRange), r.start ≤ 20 ∧ 20 ≤ r.«end»)
    ∧ (∀ r ∈ mergeRanges [⟨10, 30⟩, ⟨12, 15⟩], ¬(r.start ≤ 20 ∧ 20 ≤ r.«end»)) := by
  refine ⟨?_, by decide, by decide, by decide, by decide, by decide⟩
  intro a b h
  simp [mergeRanges, mergeStep, h]

open Answer in
/-- C10, witness: merging `1..2` with `3..4` (gap `1 ≤ 10`) yields `1..4`. -/
theorem process_files_merge_takes_later_end_witness :
    mergeRanges [⟨1, 2⟩, ⟨3, 4⟩] = [⟨1, 4⟩] :=
  process_files_merge_takes_later_end.1 ⟨1, 2⟩ ⟨3, 4⟩ (by decide)

open Answer in
/-- C2.  In `answer_context`, aliases outside `0..paths.len()` are dropped;
if exactly one distinct in-range alias remains the context is built for that
single alias, and in every other case (zero remaining, or two or more
distinct) it is built for all path indices `0..paths.len()`. -/
theorem answer_context_aliases_spec (aliases : List Nat) (paths_len : Nat) :
    (∀ x ∈ answer_context_aliases aliases paths_len, x < paths_len)
    ∧ (∀ a, aliases.filter (fun x => decide (x < paths_len)) ≠ [] →
        (∀ x ∈ aliases.filter (fun x => decide (x < paths_len)), x = a) →
        answer_context_aliases aliases paths_len = [a])
    ∧ ((¬ ∃ a, aliases.filter (fun x => decide (x < paths_len)) ≠ [] ∧
          ∀ x ∈ aliases.filter (fun x => decide (x < paths_len)), x = a) →
        answer_context_aliases aliases paths_len = List.range paths_len) := by
  set filtered := aliases.filter (fun x => decide (x < paths_len)) with hf
  have hmem_filtered : ∀ x ∈ filtered, x < paths_len := by
    intro x hx
    rw [hf] at hx
    simpa using (List.of_mem_filter hx)
  have hmem_dd : ∀ x, x ∈ rustDedup (sortNat filtered) ↔ x ∈ filtered := by
    intro x
    rw [mem_rustDedup, mem_sortNat]
  refine ⟨?_, ?_, ?_⟩
  · intro x hx
    simp only [answer_context_aliases, ← hf] at hx
    by_cases h1 : (rustDedup (sortNat filtered)).length = 1
    · rw [if_pos h1] at hx
      exact hmem_filtered x ((hmem_dd x).mp hx)
    · rw [if_neg h1] at hx
      exact List.mem_range.mp hx
  · intro a hne hall
    have hsne : sortNat filtered ≠ [] := sortNat_ne_nil hne
    have hall' : ∀ x ∈ sortNat filtered, x = a := by
      intro x hx
      exact hall x (mem_sortNat.mp hx)
    have hdd : rustDedup (sortNat filtered) = [a] := rustDedup_all_eq hsne hall'
    simp only [answer_context_aliases, ← hf, hdd]
    simp
  · intro hnex
    simp only [answer_context_aliases, ← hf]
    have h1 : (rustDedup (sortNat filtered)).length ≠ 1 := by
      intro hlen
      obtain ⟨a, ha⟩ := List.length_eq_one.mp hlen
      refine hnex ⟨a, ?_, ?_⟩
      · intro h0
        rw [h0] at ha
        simp [sortNat, rustDedup] at ha
      · intro x hx
        have : x ∈ rustDedup (sortNat filtered) := (hmem_dd x).mpr hx
        rw [ha] at this
        simpa using this
    rw [if_neg h1]

open Answer in
/-- C2, witness: with paths `0..3` and model aliases `[1, 1, 5]`, the single
in-range distinct alias `1` is kept. -/
theorem answer_context_aliases_spec_witness :
    answer_context_aliases [1, 1, 5] 3 = [1] :=
  (answer_context_aliases_spec [1, 1, 5] 3).2.1 1 (by decide) (by decide)

open Answer in
/-- C7.  With a non-empty exchange list, `get_path_alias(p)` returns an index
`i` with `paths[i] = p`; if `p` was already present the exchange list is
unchanged; otherwise `p` is appended (to the last exchange, hence at the end
of the flattened path list) at index `paths.len()`; an immediate repeat call
returns the same index and state; and no previously assigned index changes. -/
theorem get_path_alias_spec (exchanges : List (List String)) (path : String)
    (hne : exchanges ≠ []) :
    (agentPaths (get_path_alias exchanges path).2)[(get_path_alias exchanges path).1]?
        = some path
    ∧ (path ∈ agentPaths exchanges → (get_path_alias exchanges path).2 = exchanges)
    ∧ (path ∉ agentPaths exchanges →
        agentPaths (get_path_alias exchanges path).2 = agentPaths exchanges ++ [path]
        ∧ (get_path_alias exchanges path).1 = (agentPaths exchanges).length)
    ∧ get_path_alias (get_path_alias exchanges path).2 path = get_path_alias exchanges path
    ∧ (∀ j, j < (agentPaths exchanges).length →
        (agentPaths (get_path_alias exchanges path).2)[j]? = (agentPaths exchanges)[j]?) := by
  cases hpos : position (fun p => p == path) (agentPaths exchanges) with
  | some i =>
    have hres : get_path_alias exchanges path = (i, exchanges) := by
      simp [get_path_alias, hpos]
    obtain ⟨x, hx, hbeq, -⟩ := position_some_spec hpos
    have hxp : x = path := by simpa using hbeq
    subst hxp
    refine ⟨by rw [hres]; simpa using hx, fun _ => by rw [hres], ?_,
      by rw [hres]; exact hres, ?_⟩
    · intro hnot
      exact absurd (List.getElem?_mem hx) hnot
    · intro j _
      rw [hres]
  | none =>
    have hres : get_path_alias exchanges path
        = ((agentPaths exchanges).length, pushLast exchanges path) := by
      simp [get_path_alias, hpos]
    have hnot : path ∉ agentPaths exchanges := by
      intro hmem
      have := position_eq_none_iff.mp hpos path hmem
      simp at this
    have hpaths : agentPaths (pushLast exchanges path)
        = agentPaths exchanges ++ [path] := agentPaths_pushLast hne
    refine ⟨?_, fun hmem => absurd hmem hnot, fun _ => by rw [hres]; exact ⟨hpaths, rfl⟩,
      ?_, ?_⟩
    · rw [hres]
      simp only [hpaths]
      exact List.getElem?_concat_length _ _
    · rw [hres]
      show get_path_alias (pushLast exchanges path) path = _
      have hpos2 : position (fun p => p == path) (agentPaths (pushLast exchanges path))
          = some (agentPaths exchanges).length := by
        rw [hpaths]
        exact position_append_of_none hpos (by simp)
      simp [get_path_alias, hpos2]
    · intro j hj
      rw [hres]
      simp only [hpaths]
      exact List.getElem?_append_left hj

open Answer in
/-- C7, witness: a fresh path in a one-exchange conversation is appended at
index 0 onto the flattened path list. -/
theorem get_path_alias_spec_witness :
    (agentPaths (get_path_alias [[]] "a").2)[(get_path_alias [[]] "a").1]? = some "a" :=
  (get_path_alias_spec [[]] "a" (by simp)).1

open Answer in
/-- C8.  Both chunk-inserting operations preserve the invariant that the
exchange's `code_chunks` list contains no empty chunk (a chunk is empty iff
its snippet trimmed of whitespace is empty): `code_search` filters empty
chunks before pushing, and `process_files` skips them with an `if`. -/
theorem code_chunks_insert_no_empty (ex chunks : List CodeChunk)
    (processed : List (List RelevantChunk × String × Nat))
    (h : ∀ c ∈ ex, c.is_empty = false) :
    (∀ c ∈ code_search_insert ex chunks, c.is_empty = false)
    ∧ (∀ c ∈ process_files_insert ex processed, c.is_empty = false) := by
  constructor
  · intro c hc
    rcases List.mem_append.mp hc with h1 | h1
    · exact h c h1
    · have := List.of_mem_filter h1
      simpa using this
  · show ∀ c ∈ List.foldl _ ex processed, c.is_empty = false
    induction processed generalizing ex with
    | nil => intro c hc; exact h c (by simpa using hc)
    | cons file rest ih =>
      intro c hc
      rw [List.foldl_cons] at hc
      refine ih _ ?_ c hc
      intro d hd
      exact foldl_proc_inner_inv file.2.1 file.2.2 file.1 ex h d hd

open Answer in
/-- C8, witness: inserting a whitespace-only chunk alongside a real one keeps
the no-empty-chunk invariant through both operations. -/
theorem code_chunks_insert_no_empty_witness :
    (∀ c ∈ code_search_insert []
        [⟨"p", 0, " ", 1, 2⟩, ⟨"p", 0, "x", 1, 2⟩], c.is_empty = false)
    ∧ (∀ c ∈ process_files_insert []
        [([⟨⟨1, 2⟩, " "⟩, ⟨⟨1, 2⟩, "y"⟩], "p", 0)], c.is_empty = false) :=
  code_chunks_insert_no_empty [] [⟨"p", 0, " ", 1, 2⟩, ⟨"p", 0, "x", 1, 2⟩]
    [([⟨⟨1, 2⟩, " "⟩, ⟨⟨1, 2⟩, "y"⟩], "p", 0)] (by simp)


open Answer in
/-- C9.  Serialising any `Action` variant to the wire `{name, arguments}`
function-call shape and deserialising it back through `deserialize_gpt` (which
wraps the wire shape into a tagged `{name: args}` object) yields the original
action — in particular for the four variants the planner may emit (`Path`,
`Code`, `Proc`, `Answer`); and `deserialize_gpt` fails on malformed argument
JSON and on unknown tool names. -/
theorem action_wire_roundtrip (parse : String → Option Json) :
    (∀ (a : Action) (argStr : String), parse argStr = some a.wireArgs →
        deserialize_gpt parse ⟨some a.wireName, argStr⟩ = some a)
    ∧ (∀ (nm argStr : String), parse argStr = none →
        deserialize_gpt parse ⟨some nm, argStr⟩ = none)
    ∧ (∀ (nm argStr : String) (v : Json),
        nm ∉ ["query", "path", "none", "code", "proc"] → parse argStr = some v →
        deserialize_gpt parse ⟨some nm, argStr⟩ = none) := by
  refine ⟨?_, ?_, ?_⟩
  · intro a argStr hp
    cases a with
    | query s =>
      simp [deserialize_gpt, Action.wireName, Action.wireArgs, actionFromTagged, hp]
    | path q =>
      simp [deserialize_gpt, Action.wireName, Action.wireArgs, actionFromTagged, hp,
        getStrField, List.lookup]
    | answer ps =>
      have hps := jsonNats_map_num ps
      simp [deserialize_gpt, Action.wireName, Action.wireArgs, actionFromTagged, hp,
        getNatsField, jsonNatList, List.lookup, hps]
    | code q =>
      simp [deserialize_gpt, Action.wireName, Action.wireArgs, actionFromTagged, hp,
        getStrField, List.lookup]
    | proc q ps =>
      have hps := jsonNats_map_num ps
      simp [deserialize_gpt, Action.wireName, Action.wireArgs, actionFromTagged, hp,
        getStrField, getNatsField, jsonNatList, List.lookup, hps]
  · intro nm argStr hp
    simp [deserialize_gpt, hp]
  · intro nm argStr v hnm hp
    simp only [List.mem_cons, List.mem_singleton, not_or] at hnm
    obtain ⟨h1, h2, h3, h4, h5, -⟩ := hnm
    simp [deserialize_gpt, hp, actionFromTagged, h1, h2, h3, h4, h5]

open Answer in
/-- C9, witness: a concrete parser mapping `"A"` to `{"query": "q"}` round
trips the `Path` action, and fails on a malformed argument string and an
unknown tool name. -/
theorem action_wire_roundtrip_witness :
    deserialize_gpt (fun s => if s = "A" then some (.obj [("query", .str "q")]) else none)
        ⟨some "path", "A"⟩ = some (.path "q")
    ∧ deserialize_gpt (fun s => if s = "A" then some (.obj [("query", .str "q")]) else none)
        ⟨some "path", "B"⟩ = none
    ∧ deserialize_gpt (fun s => if s = "A" then some (.obj [("query", .str "q")]) else none)
        ⟨some "grep", "A"⟩ = none :=
  ⟨(action_wire_roundtrip
      (fun s => if s = "A" then some (.obj [("query", .str "q")]) else none)).1
      (.path "q") "A" (by simp [Action.wireArgs]),
   (action_wire_roundtrip
      (fun s => if s = "A" then some (.obj [("query", .str "q")]) else none)).2.1
      "path" "B" (by simp),
   (action_wire_roundtrip
      (fun s => if s = "A" then some (.obj [("query", .str "q")]) else none)).2.2
      "grep" "A" (.obj [("query", .str "q")]) (by simp) (by simp)⟩


open Answer in
/-- C6, counterexample.  With a tokeniser whose second token spans the
boundary between the first and second character of the text (exactly the
multi-byte-character situation the claim describes), `limit_tokens([0,1,2],
1)` returns the empty text even though the one-character prefix `[0]` is a
valid text (it decodes cleanly) with token count `1 ≤ 1`; so the result is
not the longest valid prefix whose token count is at most `max`. -/
theorem limit_tokens_not_longest :
    limit_tokens toyEncode toyDecode [0, 1, 2] 1 = []
    ∧ [0] <+: [0, 1, 2]
    ∧ toyDecode (toyEncode [0]) = some [0]
    ∧ (toyEncode [0]).length ≤ 1
    ∧ (limit_tokens toyEncode toyDecode [0, 1, 2] 1).length < ([0] : ByteText).length := by
  have h0 : limit_tokens toyEncode toyDecode [0, 1, 2] 1 = [] := by
    simp [limit_tokens, toyEncode, limitTokensGo, toyDecode]
  refine ⟨h0, ⟨[1, 2], rfl⟩, by decide, by decide, ?_⟩
  rw [h0]
  decide

open Answer in
/-- C6, amended.  Provided that every successfully decoded token prefix of
`encode(s)` is a byte prefix of `s` that re-encodes to the same tokens (true
of the byte-pair encoder), `limit_tokens(s, n)` returns a prefix of `s` whose
token count is at most `n` — namely the decoding of the longest decodable
prefix of the first `n` tokens of `s`, and `""` when no non-empty prefix
decodes cleanly; it is not in general the *longest* valid prefix of `s` with
token count at most `n`. -/
theorem limit_tokens_spec (encode : ByteText → List Nat)
    (dec : List Nat → Option ByteText) (text : ByteText) (max_tokens : Nat)
    (hdec : ∀ ts s, ts <+: encode text → dec ts = some s →
        s <+: text ∧ encode s = ts)
    (henc0 : encode [] = []) :
    limit_tokens encode dec text max_tokens <+: text
    ∧ (encode (limit_tokens encode dec text max_tokens)).length ≤ max_tokens := by
  obtain ⟨h1, h2⟩ := limitTokensGo_spec encode dec text hdec henc0
    ((encode text).take max_tokens).length ((encode text).take max_tokens)
    (Nat.le_refl _) (List.take_prefix _ _)
  refine ⟨h1, h2.trans ?_⟩
  simp

open Answer in
/-- C6, witness for the amended theorem: the identity tokeniser (one token
per byte) satisfies both tokeniser hypotheses, and the result on `[5, 6]`
with `max = 1` is a prefix with at most one token. -/
theorem limit_tokens_spec_witness :
    limit_tokens (fun t => t) (fun ts => some ts) [5, 6] 1 <+: [5, 6]
    ∧ ((fun (t : ByteText) => t) (limit_tokens (fun t => t) (fun ts => some ts) [5, 6] 1)).length ≤ 1 :=
  limit_tokens_spec (fun t => t) (fun ts => some ts) [5, 6] 1
    (fun ts s hp he => by
      rw [Option.some.injEq] at he
      exact ⟨he ▸ hp, he ▸ rfl⟩)
    rfl

open Answer in
/-- C3, counterexample to the claimed "fails iff".  The claim says
`trim_history` fails iff the headroom cannot be reached with no trimmable
message remaining.  The only-if half of that iff is false: with a token
counter whose completion room drops again once a second message is hidden
(the room is not monotone under hiding — which the real counter does not
guarantee either, since hiding a message whose content tokenises to fewer
tokens than `"[HIDDEN]"` shrinks the room), `trim_history` stops successfully
after hiding one message even though the fully-hidden history is below the
2048-token headroom. -/
theorem trim_history_succeeds_below_full_headroom :
    trim_history
        (fun l => if l.countP (fun t => t.content == "[HIDDEN]") == 1 then 4000 else 0)
        (fun _ => "")
        [Message.plainText "user" "a", Message.plainText "user" "b"]
      = some [Message.plainText "user" "[HIDDEN]", Message.plainText "user" "b"]
    ∧ (fun l => if l.countP (fun t => t.content == "[HIDDEN]") == 1 then 4000 else 0)
        ((hideAll [Message.plainText "user" "a", Message.plainText "user" "b"]).map
          (toTik (fun _ => ""))) < HEADROOM := by
  constructor
  · rfl
  · decide

open Answer in
/-- C3, amended.  For every message history on which `trim_history` succeeds,
the result has the same length; system messages (more generally, any
plain-text message that is neither `user` nor `assistant`) and function-call
messages are preserved verbatim; every other message is unchanged or has its
content replaced by exactly `"[HIDDEN]"`; replacements hide the oldest
not-yet-hidden user/assistant/function-return message first; and the result
satisfies the 2048-token completion headroom.  `trim_history` fails *only if*
the headroom cannot be reached with no trimmable message remaining: failure
implies the fully-hidden history is still under headroom.  The converse —
an under-headroom fully-hidden history forces failure — holds under the
additional hypothesis that hiding a message never shrinks the completion
room; without it the converse fails (see the counterexample above). -/
theorem trim_history_spec (room : List TikMessage → Nat) (ser : FunctionCall → String)
    (msgs : List Message) :
    (∀ out, trim_history room ser msgs = some out →
      out.length = msgs.length
      ∧ (∀ (i : Nat) (role c : String), msgs[i]? = some (.plainText role c) →
          role ≠ "user" → role ≠ "assistant" → out[i]? = some (.plainText role c))
      ∧ (∀ (i : Nat) (role : String) (fc : FunctionCall) (c : Option String),
          msgs[i]? = some (.functionCall role fc c) →
          out[i]? = some (.functionCall role fc c))
      ∧ (∀ (i : Nat) (m : Message), msgs[i]? = some m →
          out[i]? = some m ∨ (trimmable m = true ∧ out[i]? = some (hideMsg m)))
      ∧ (∀ (i j : Nat), j < i → out[i]? ≠ msgs[i]? →
          ∀ m, msgs[j]? = some m → trimmable m = true → out[j]? = some (hideMsg m))
      ∧ HEADROOM ≤ room (out.map (toTik ser)))
    ∧ (trim_history room ser msgs = none →
        room ((hideAll msgs).map (toTik ser)) < HEADROOM)
    ∧ ((∀ l l', hideFirst l = some l' →
          room (l.map (toTik ser)) ≤ room (l'.map (toTik ser))) →
        room ((hideAll msgs).map (toTik ser)) < HEADROOM →
        trim_history room ser msgs = none) := by
  refine ⟨?_, ?_, ?_⟩
  · intro out h
    obtain ⟨⟨hlen, hpt, hdc⟩, hroom⟩ :=
      trimLoop_some_spec room ser msgs (msgs.countP trimmable) msgs out reached_refl h
    refine ⟨hlen, ?_, ?_, ?_, hdc, hroom⟩
    · intro i role c hi hu ha
      rcases hpt i with h1 | ⟨m0, hm0, htr0, -⟩
      · rw [h1, hi]
      · exfalso
        rw [hi] at hm0
        rw [← Option.some.inj hm0] at htr0
        simp [trimmable, hu, ha] at htr0
    · intro i role fc c hi
      rcases hpt i with h1 | ⟨m0, hm0, htr0, -⟩
      · rw [h1, hi]
      · exfalso
        rw [hi] at hm0
        rw [← Option.some.inj hm0] at htr0
        simp [trimmable] at htr0
    · intro i m hi
      rcases hpt i with h1 | ⟨m0, hm0, htr0, hcur0⟩
      · left
        rw [h1, hi]
      · right
        have hm0m : m0 = m := Option.some.inj (hm0.symm.trans hi)
        subst hm0m
        exact ⟨htr0, hcur0⟩
  · intro h
    exact trimLoop_none_spec room ser msgs (msgs.countP trimmable) msgs reached_refl
      (Nat.le_refl _) h
  · intro mono hsmall
    exact trimLoop_none_of_hideAll_small room ser msgs mono (msgs.countP trimmable)
      msgs (Nat.le_refl _) rfl hsmall

open Answer in
/-- C3, witness.  With a token counter granting headroom exactly when some
content has been hidden, the 3-message history is trimmed successfully (and
satisfies the headroom afterwards); with a counter that never grants
headroom, a history with one trimmable message fails, and the failure
characterisation applies. -/
theorem trim_history_spec_witness :
    (∃ out, trim_history
        (fun l => if l.any (fun t => t.content == "[HIDDEN]") then 4000 else 0)
        (fun _ => "")
        [Message.plainText "system" "s", Message.plainText "user" "a",
          Message.plainText "user" "b"] = some out
      ∧ out.length = 3
      ∧ HEADROOM ≤ (fun l => if l.any (fun t => t.content == "[HIDDEN]") then 4000 else 0)
          (out.map (toTik (fun _ => ""))))
    ∧ trim_history (fun _ => 0) (fun _ => "") [Message.plainText "user" "a"] = none
    ∧ (fun _ => (0 : Nat)) ((hideAll [Message.plainText "user" "a"]).map
        (toTik (fun _ => ""))) < HEADROOM := by
  refine ⟨⟨[Message.plainText "system" "s", Message.plainText "user" "[HIDDEN]",
      Message.plainText "user" "b"], ?_, ?_, ?_⟩, ?_, ?_⟩
  · rfl
  · have h := (trim_history_spec
        (fun l => if l.any (fun t => t.content == "[HIDDEN]") then 4000 else 0)
        (fun _ => "")
        [Message.plainText "system" "s", Message.plainText "user" "a",
          Message.plainText "user" "b"]).1 _ rfl
    exact h.1
  · have h := (trim_history_spec
        (fun l => if l.any (fun t => t.content == "[HIDDEN]") then 4000 else 0)
        (fun _ => "")
        [Message.plainText "system" "s", Message.plainText "user" "a",
          Message.plainText "user" "b"]).1 _ rfl
    exact h.2.2.2.2.2
  · exact (trim_history_spec (fun _ => 0) (fun _ => "")
      [Message.plainText "user" "a"]).2.2 (fun _ _ _ => Nat.le_refl 0) (by decide)
  · decide
